import Mathlib

/-!
Verification development for the protein-atlas dataset-access layer
(`protein_atlas/__init__.py`).

The Python source is shallowly embedded below.  Machine integers become
`Nat`/`Int`; `pandas`/`numpy` tables become lists; fallible operations
return `Except PyErr`.  The multilabel stratified k-fold splitter
(`iterstrat.ml_stratifiers.MultilabelStratifiedKFold`) and the sklearn
`MultiLabelBinarizer` are external libraries whose sources are not part of
this repository; they are modelled from the spec (sections 4.2, 4.4 and the
glossary), faithful to the published iterative-stratification algorithm the
spec names.  Floating-point fold counters `c_folds = r * n - m` (with
`r = 1/k` shared across folds) are embedded as the integer counters
`k*r*n - k*m = n - k*m`: all the algorithm ever does with them is compare
them across folds, and both encodings are strictly decreasing in `m` with
ties exactly at equal `m`, so every comparison agrees.
-/

/-- Python exception classes relevant to the embedded code.  `nameError`
stands for the `UnboundLocalError` (a subclass of `NameError`) that Python
raises when a function reads a local variable no branch has bound. -/
inductive PyErr where
  | typeError
  | valueError
  | indexError
  | keyError
  | nameError
deriving DecidableEq, Repr

/-- Values that can sit inside a Python list handed to `ProteinAtlas.any`. -/
inductive PyVal where
  | vint (i : ℤ)
  | vstr (s : String)
  | vnone
deriving DecidableEq, Repr

/-- The argument of `ProteinAtlas.any`, as a tagged union over the Python
types its `isinstance` dispatch distinguishes.  `pfloat` and `pnone` stand
for the remaining Python types, none of which match any branch. -/
inductive PySel where
  | pidx (names : List String)
  | pint (i : ℤ)
  | plist (xs : List PyVal)
  | pstr (s : String)
  | pfloat
  | pnone
deriving DecidableEq, Repr

/-- The `ProteinAtlas.classes` property: the fixed 28-class vocabulary. -/
def protein_classes : List String :=
  ["Nucleoplasm", "Nuclear membrane", "Nucleoli",
   "Nucleoli fibrillar center", "Nuclear speckles",
   "Nuclear bodies", "Endoplasmic reticulum", "Golgi apparatus",
   "Peroxisomes", "Endosomes", "Lysosomes",
   "Intermediate filaments", "Actin filaments",
   "Focal adhesion sites", "Microtubules", "Microtubule ends",
   "Cytokinetic bridge", "Mitotic spindle",
   "Microtubule organizing center", "Centrosome", "Lipid droplets",
   "Plasma membrane", "Cell junctions", "Mitochondria",
   "Aggresome", "Cytosol", "Cytoplasmic bodies", "Rods & rings"]

/-- The label table `self.labels`: a `pandas.DataFrame` with the sample id
index, the 28 class names as columns, and a 0/1 row per sample. -/
structure LabelDF where
  columns : List String
  rows : List (String × List ℕ)
deriving DecidableEq, Repr

/-- Column positions of a column name, as `pandas` label-based lookup sees
them (all positions whose column name equals `name`, in order). -/
def colPos (df : LabelDF) (name : String) : List ℕ :=
  (List.range df.columns.length).filter
    (fun j => decide (df.columns.getD j ("") = name))

/-- The row filter shared by every branch of `ProteinAtlas.any`:
`labels.loc[(labels.iloc-or-loc-selection == 1).any(axis=1)]`, selecting
the rows where at least one of the selected column positions holds a 1. -/
def selectAnyMask (df : LabelDF) (ps : List ℕ) : LabelDF :=
  { df with rows := df.rows.filter (fun r => ps.any (fun p => decide (r.2.getD p 0 = 1))) }

/-- Positional column lookup as `labels.iloc[:, i]` resolves a single
integer: Python-style negative positions count from the end; anything out
of range raises `IndexError`. -/
def ilocPos (ncols : ℕ) (i : ℤ) : Except PyErr ℕ :=
  let j : ℤ := if i < 0 then (ncols : ℤ) + i else i
  if h : 0 ≤ j ∧ j < (ncols : ℤ) then .ok j.toNat else .error .indexError

/-- `ProteinAtlas.any`, branch for branch.  The source checks, in order:
`isinstance(class_, pd.Index)`, `isinstance(class_, int) or
(isinstance(class_, list) and isinstance(class_[0], int))`, and
`isinstance(class_, str)`.  If no branch matches, no branch has bound
`mask`, and the final `return self.labels.loc[mask]` raises
`UnboundLocalError` (`.nameError` here).  An empty list raises
`IndexError` inside the second test, at `class_[0]`.  A list whose head is
an int but whose later entries are not passes the `isinstance` test and then
fails inside `labels.iloc` (`.indexError`). -/
def pa_any (df : LabelDF) (class_ : PySel) : Except PyErr LabelDF :=
  match class_ with
  | .pidx names =>
      if names.all (fun nm => !(colPos df nm).isEmpty) then
        .ok (selectAnyMask df (names.flatMap (colPos df)))
      else .error .keyError
  | .pint i =>
      match ilocPos df.columns.length i with
      | .ok p => .ok (selectAnyMask df [p])
      | .error e => .error e
  | .plist xs =>
      match xs.head? with
      | none => .error .indexError
      | some (.vint _) =>
          let ints := xs.filterMap (fun v => match v with | .vint i => some i | _ => none)
          if ints.length = xs.length then
            match ints.mapM (ilocPos df.columns.length) with
            | .ok ps => .ok (selectAnyMask df ps)
            | .error e => .error e
          else .error .indexError
      | some _ => .error .nameError
  | .pstr s =>
      if (colPos df s).isEmpty then .error .keyError
      else .ok (selectAnyMask df (colPos df s))
  | .pfloat => .error .nameError
  | .pnone => .error .nameError

/-- Decidable equality for the embedded `Except` results. -/
instance {ε α : Type} [DecidableEq ε] [DecidableEq α] :
    DecidableEq (Except ε α) := fun x y =>
  match x, y with
  | .error a, .error b =>
      if h : a = b then .isTrue (by rw [h])
      else .isFalse (fun hc => h (Except.error.inj hc))
  | .ok a, .ok b =>
      if h : a = b then .isTrue (by rw [h])
      else .isFalse (fun hc => h (Except.ok.inj hc))
  | .error _, .ok _ => .isFalse (fun hc => Except.noConfusion hc)
  | .ok _, .error _ => .isFalse (fun hc => Except.noConfusion hc)

/-- Split a character list on a separator character, keeping empty
pieces, exactly as Python `s.split(" ")` behaves for the one-character
separator: `"".split(" ") == [""]`, and consecutive separators produce
empty tokens. -/
def splitOnChar (sep : Char) : List Char → List (List Char)
  | [] => [[]]
  | c :: cs =>
      let rest := splitOnChar sep cs
      if c = sep then [] :: rest
      else
        match rest with
        | [] => [[c]]
        | p :: ps => (c :: p) :: ps

/-- Digit-string value: `some` of the decimal value when `cs` is a
non-empty string of ASCII digits, else `none`. -/
def digitsVal (cs : List Char) : Option ℕ :=
  if cs.isEmpty then none
  else cs.foldl (fun acc c =>
    match acc with
    | none => none
    | some a => if c.isDigit then some (a * 10 + (c.toNat - 48)) else none) (some 0)

/-- One target-string token as `np.int32` string conversion accepts it:
an optional sign followed by at least one digit; anything else (including
the empty token) is rejected. -/
def parsePiece (cs : List Char) : Option ℤ :=
  match cs with
  | '-' :: rest => (digitsVal rest).map (fun v => -(v : ℤ))
  | '+' :: rest => (digitsVal rest).map (fun v => (v : ℤ))
  | _ => (digitsVal cs).map (fun v => (v : ℤ))

/-- The `read_target` lambda of `Train.__init__`:
`np.array(s.split(" "), dtype=np.int32)`.  Splitting the empty string on
a space yields `[""]`, whose int conversion raises `ValueError`; any
malformed token likewise raises `ValueError`. -/
def read_target (s : String) : Except PyErr (List ℤ) :=
  match (splitOnChar ' ' s.toList).mapM parsePiece with
  | some ts => .ok ts
  | none => .error .valueError

/-- Insert into a sorted list of integers (ascending). -/
def insSorted (x : ℤ) : List ℤ → List ℤ
  | [] => [x]
  | y :: ys => if x ≤ y then x :: y :: ys else y :: insSorted x ys

/-- Insertion sort for integers (ascending). -/
def sortInts (l : List ℤ) : List ℤ := l.foldr insSorted []

/-- Modelled from the spec: `sklearn.preprocessing.MultiLabelBinarizer`
(not part of this repository) fits its column vocabulary as the sorted set
of all labels observed across the samples. -/
def mlbFitClasses (tss : List (List ℤ)) : List ℤ :=
  sortInts (tss.foldr (fun ts acc => ts ++ acc) []).dedup

/-- Modelled from the spec: a fitted `MultiLabelBinarizer` turns one
sample's label set into the 0/1 indicator row over its class vocabulary
(spec 4.2: "conversion of a variable-length set of class indices into a
fixed-width 0/1 indicator vector over a known vocabulary"). -/
def binarizeRow (classes : List ℤ) (ts : List ℤ) : List ℕ :=
  classes.map (fun c => if c ∈ ts then 1 else 0)

/-- The numeric vocabulary the binarizer fits on the full training data:
all 28 class indices 0..27 occur, so the fitted (sorted) classes are
`[0, 1, ..., 27]`, in the same order as `protein_classes`. -/
def vocab28 : List ℤ := (List.range 28).map (fun n => (n : ℤ))

/-- Reading a binarized row back through the vocabulary: the classes at
the positions holding a 1. -/
def positiveClasses (classes : List ℤ) (row : List ℕ) : List ℤ :=
  (classes.zip row).filterMap (fun p => if p.2 = 1 then some p.1 else none)

/-- The `Train` dataset state built by `Train.__init__`: the binarized
label table (`self.labels`, whose index is `self.index`) and the fitted
binarizer vocabulary (`self.mlb`). -/
structure TrainModel where
  df : LabelDF
  classes_ : List ℤ
deriving DecidableEq, Repr

/-- `Train.__init__` over the parsed label CSV (a list of
`(Id, Target)` rows): parse every target string, fit the binarizer,
binarize every row, and label the columns with the 28 class names.
A parse failure anywhere aborts the whole construction — the `Except`
carries no partial table.  `pd.DataFrame(labels, index, columns)` also
requires the binarized width to match the 28 column names. -/
def Train_init (csv : List (String × String)) : Except PyErr TrainModel :=
  match csv.mapM (fun r => (read_target r.2).map (fun ts => (r.1, ts))) with
  | .error e => .error e
  | .ok targs =>
      let cls := mlbFitClasses (targs.map Prod.snd)
      if cls.length = protein_classes.length then
        .ok { df := { columns := protein_classes,
                      rows := targs.map (fun p => (p.1, binarizeRow cls p.2)) },
              classes_ := cls }
      else .error .valueError

/-- A decoded single-band 512x512 image: a byte value per pixel.  The
byte range is the contract of the single-channel PNG files the spec's
image directory holds. -/
abbrev Img := Fin 512 → Fin 512 → Fin 256

/-- A stacked, normalized 4-band image tensor of shape (512, 512, 4). -/
abbrev Tensor3 := Fin 512 → Fin 512 → Fin 4 → ℚ

/-- The image directory: resolves a sample id and channel index to the
decoded single-band image (`Image.open(self.get_path(id_, chan_ix))`). -/
abbrev Store := String → Fin 4 → Img

/-- `ProteinAtlas.get_image`: open the 4 channel files and
`np.stack(bands, axis=2) / 255`. -/
def get_image (stor : Store) (id_ : String) : Tensor3 :=
  fun r c ch => (((stor id_ ch r c).val : ℚ)) / 255

/-- The all-zero tensor `np.zeros((nrows, ncols, n_channels))` fills with. -/
def zeros3 : Tensor3 := fun _ _ _ => 0

/-- `ProteinAtlas.get_images`: allocate
`X = np.zeros((len(ids), 512, 512, 4))` and assign
`X[sample_ix] = get_image(id_)` for each `(sample_ix, id_)` in
`enumerate(ids)`. -/
def get_images (stor : Store) (ids : List String) : List Tensor3 :=
  (ids.enum).foldl (fun X p => X.set p.1 (get_image stor p.2))
    (List.replicate ids.length zeros3)

/-- `int(np.ceil(a / float(b)))` for naturals (the float division is by a
power of two resp. small integers, hence exact in double precision for
any realistic dataset size). -/
def ceilDivNat (a b : ℕ) : ℕ := (a + b - 1) / b

/- ### The iterative stratified k-fold splitter (spec 4.4)

Modelled from the spec: `MultilabelStratifiedKFold` of the external
`iterstrat` library, as described in spec section 4.4 and the glossary
("iterative stratified k-fold split", "multi-label aware").  State that
the Python code keeps imperatively is derived here from the assignment
history `A : List (ℕ × ℕ)` of (sample, fold) pairs, in assignment order:
`c_folds[f] = n/k - received(f)` is embedded (scaled by `k`) as
`n - k*received(f)`, and
`c_folds_labels[f][j] = colsum(j)/k - (labels received by f in column j)`
as `colsum(j) - k*recLab(f, j)`.  Random tie-breaking
(`random_state.choice`) is an oracle `o : ℕ → ℕ` consulted at an
incrementing counter. -/

/-- Entry `labels[s, j]` of the label matrix (a list of rows). -/
def lab (y : List (List ℕ)) (s j : ℕ) : ℕ := (y.getD s []).getD j 0

/-- Column sum `labels.sum(axis=0)[j]`. -/
def colSum (y : List (List ℕ)) (j : ℕ) : ℕ :=
  y.foldl (fun a row => a + row.getD j 0) 0

/-- Whether sample `s` already carries a fold assignment in history `A`
(the negation of `labels_not_processed_mask[s]`). -/
def assigned (A : List (ℕ × ℕ)) (s : ℕ) : Bool :=
  A.any (fun p => decide (p.1 = s))

/-- The still-unassigned samples, ascending (`np.where(mask)[0]`). -/
def unassignedList (n : ℕ) (A : List (ℕ × ℕ)) : List ℕ :=
  (List.range n).filter (fun s => !assigned A s)

/-- How many samples fold `f` has received so far. -/
def received (A : List (ℕ × ℕ)) (f : ℕ) : ℕ :=
  (A.filter (fun p => decide (p.2 = f))).length

/-- Total label mass in column `j` over the samples fold `f` has
received. -/
def recLab (y : List (List ℕ)) (A : List (ℕ × ℕ)) (f j : ℕ) : ℕ :=
  (A.filter (fun p => decide (p.2 = f))).foldl (fun a p => a + lab y p.1 j) 0

/-- The desired-examples counter `c_folds[f]`, scaled by `k`. -/
def cFolds (n k : ℕ) (A : List (ℕ × ℕ)) (f : ℕ) : ℤ :=
  (n : ℤ) - (k : ℤ) * received A f

/-- The desired-label counter `c_folds_labels[f][j]`, scaled by `k`. -/
def cFoldsLabels (y : List (List ℕ)) (k : ℕ) (A : List (ℕ × ℕ)) (f j : ℕ) : ℤ :=
  (colSum y j : ℤ) - (k : ℤ) * recLab y A f j

/-- The sublist of `l` attaining the maximal key
(`np.where(v == v.max())[0]`), in order. -/
def maxSet (key : ℕ → ℤ) (l : List ℕ) : List ℕ :=
  l.filter (fun f => l.all (fun g => decide (key g ≤ key f)))

/-- Resolve a candidate list: a singleton is taken as is; a genuine tie is
broken by the random oracle (`random_state.choice`), advancing the draw
counter. -/
def pickOne (o : ℕ → ℕ) (c : ℕ) (l : List ℕ) : ℕ × ℕ :=
  if l.length ≤ 1 then (l.headD 0, c) else (l.getD (o c % l.length) 0, c + 1)

/-- Label mass of column `j` over the unassigned samples
(`labels[mask].sum(axis=0)[j]`). -/
def numLabels (y : List (List ℕ)) (U : List ℕ) (j : ℕ) : ℕ :=
  U.foldl (fun a s => a + lab y s j) 0

/-- Minimum of a list of naturals (0 for the empty list). -/
def listMinNat : List ℕ → ℕ
  | [] => 0
  | x :: xs => xs.foldl min x

/-- Assign one sample while processing label `L`: the candidate folds are
those maximizing `c_folds_labels[:, L]`, ties broken by maximal
`c_folds`, remaining ties by the oracle; the pair is appended to the
history. -/
def assignOne (y : List (List ℕ)) (n k : ℕ) (o : ℕ → ℕ) (L : ℕ)
    (st : List (ℕ × ℕ) × ℕ) (s : ℕ) : List (ℕ × ℕ) × ℕ :=
  let S1 := maxSet (fun f => cFoldsLabels y k st.1 f L) (List.range k)
  let S2 := maxSet (fun f => cFolds n k st.1 f) S1
  let pc := pickOne o st.2 S2
  (st.1 ++ [(s, pc.1)], pc.2)

/-- Assign one label-less sample in the fallback branch:
`fold_idx = np.argmax(c_folds)` (the first maximal fold). -/
def fallbackAssign (n k : ℕ) (st : List (ℕ × ℕ) × ℕ) (s : ℕ) :
    List (ℕ × ℕ) × ℕ :=
  let f := (maxSet (fun g => cFolds n k st.1 g) (List.range k)).headD 0
  (st.1 ++ [(s, f)], st.2)

/-- The `while np.any(labels_not_processed_mask)` loop of
`IterativeStratification`, with explicit fuel (each iteration assigns at
least one sample, so `n` iterations always finish).  Each iteration:
if every remaining sample has zero label mass, assign them all by
`argmax(c_folds)` and break; otherwise pick the label with the fewest
(but at least one) remaining examples (ties by oracle) and assign all its
unassigned samples in ascending order. -/
def strataLoop (y : List (List ℕ)) (d n k : ℕ) (o : ℕ → ℕ) :
    ℕ → List (ℕ × ℕ) × ℕ → List (ℕ × ℕ)
  | 0, st => st.1
  | fuel+1, st =>
    let U := unassignedList n st.1
    if U.isEmpty then st.1
    else
      let nl := numLabels y U
      let posJ := (List.range d).filter (fun j => decide (0 < nl j))
      if posJ.isEmpty then (U.foldl (fallbackAssign n k) st).1
      else
        let m := listMinNat (posJ.map nl)
        let cands := (List.range d).filter (fun j => decide (nl j = m))
        let pc := pickOne o st.2 cands
        let samples := U.filter (fun s => decide (0 < lab y s pc.1))
        strataLoop y d n k o fuel (samples.foldl (assignOne y n k o pc.1) (st.1, pc.2))

/-- `IterativeStratification(labels, r = ones(k)/k, rng)`: the final
fold-assignment history. -/
def iterativeStratification (y : List (List ℕ)) (d k : ℕ) (o : ℕ → ℕ) :
    List (ℕ × ℕ) :=
  strataLoop y d y.length k o y.length ([], 0)

/-- `test_folds[s]`: the fold assigned to sample `s` (the array is
initialized with zeros, hence the 0 default). -/
def foldOf (A : List (ℕ × ℕ)) (s : ℕ) : ℕ :=
  ((A.find? (fun p => decide (p.1 = s))).map Prod.snd).getD 0

/-- The test sets of the k folds in fold order
(`np.where(test_folds == i)` for `i in range(k)`), which
`TrainGenerator.__init__` collects as its batches. -/
def mskfTestFolds (y : List (List ℕ)) (d k : ℕ) (o : ℕ → ℕ) : List (List ℕ) :=
  let A := iterativeStratification y d k o
  (List.range k).map (fun i =>
    (List.range y.length).filter (fun s => decide (foldOf A s = i)))

/-- The state `TrainGenerator.__init__` stores. -/
structure TrainGen where
  batch_size : ℕ
  train_set : List ℕ
  n_splits : ℕ
  batch_sets : List (List ℕ)
deriving DecidableEq, Repr

/-- `TrainGenerator.__init__(train, train_set, batch_size, augment)`.
The source assigns `self.batch_size = 32`, ignoring the `batch_size`
argument (kept here as the unused `bs`).  It computes
`n_splits = int(np.ceil(len(train_set) / float(32)))` with no minimum
clamp; the `MultilabelStratifiedKFold` constructor validates
`n_splits >= 2` and its `split` validates `n_splits <= n_samples`
(both checks are the sklearn `_BaseKFold` contract the spec cites:
"k-fold requires >= 2 splits"), each raising `ValueError`.  The labels of
the selected rows `train.labels.values[train_set]` (28 columns) are both
the features and the targets of the stratified split, and the k test
folds, in fold order, become `self.batch_sets`. -/
def TrainGenerator_init (tl : List (List ℕ)) (train_set : List ℕ)
    (bs : ℕ) (o : ℕ → ℕ) : Except PyErr TrainGen :=
  let batch_size := 32
  let n := train_set.length
  let n_splits := ceilDivNat n batch_size
  if n_splits < 2 then .error .valueError
  else if n < n_splits then .error .valueError
  else
    let y := train_set.map (fun s => tl.getD s [])
    .ok { batch_size := batch_size, train_set := train_set,
          n_splits := n_splits, batch_sets := mskfTestFolds y 28 n_splits o }

/-- `len(TrainGenerator)`: `len(self.batch_sets)`. -/
def TrainGenerator_len (g : TrainGen) : ℕ := g.batch_sets.length

/-- The first `(train, test)` pair yielded by
`MultilabelStratifiedKFold(n_splits).split(X=labels, y=labels)`:
the held-out set is fold 0's test set, the train side its ascending
complement.  Constructor and split validation as above. -/
def mskfFirstFold (y : List (List ℕ)) (k : ℕ) (o : ℕ → ℕ) :
    Except PyErr (List ℕ × List ℕ) :=
  if k < 2 then .error .valueError
  else if y.length < k then .error .valueError
  else
    let folds := mskfTestFolds y 28 k o
    let test := folds.headD []
    let train := (List.range y.length).filter (fun s => decide (s ∉ test))
    .ok (train, test)

/-- `Train.train_test_split(train_portion, batch_size)`.  The float
expression `int(1 / (1 - train_portion))` enters only as the fold count,
kept abstract here as `k0`.  Both generators are constructed from the same
`train_set` array; the two constructions consume the global numpy RNG one
after the other, so each gets its own tie-break oracle. -/
def train_test_split (tl : List (List ℕ)) (k0 bs : ℕ) (o o1 o2 : ℕ → ℕ) :
    Except PyErr (TrainGen × TrainGen) :=
  (mskfFirstFold tl k0 o).bind (fun tv =>
    (TrainGenerator_init tl tv.1 bs o1).bind (fun g1 =>
      (TrainGenerator_init tl tv.1 bs o2).map (fun g2 => (g1, g2))))

/-- Python list subscription `xs[i]`: negative indices count from the
end; out-of-range raises `IndexError`. -/
def pyListGet {α : Type} (xs : List α) (i : ℤ) : Except PyErr α :=
  let j : ℤ := if i < 0 then (xs.length : ℤ) + i else i
  if h : 0 ≤ j ∧ j.toNat < xs.length then .ok (xs.get ⟨j.toNat, h.2⟩)
  else .error .indexError

/-- Positional lookup into an index or value array (`numpy` fancy
indexing bound-checks every position). -/
def posGet {α : Type} (xs : List α) (p : ℕ) : Except PyErr α :=
  if h : p < xs.length then .ok (xs.get ⟨p, h⟩) else .error .indexError

/-- `TrainGenerator.__getitem__(index)`: fetch
`batch_set = self.batch_sets[index]` (Python list indexing), then
materialize `batch_index = train.labels.index[batch_set]`,
`x_batch = train.get_images(batch_index)` and
`y_batch = train.labels.values[batch_set, :]`. -/
def TrainGenerator_getitem (tm : TrainModel) (stor : Store) (g : TrainGen)
    (i : ℤ) : Except PyErr (List Tensor3 × List (List ℕ)) := do
  let batch_set ← pyListGet g.batch_sets i
  let ids ← batch_set.mapM (posGet (tm.df.rows.map Prod.fst))
  let ys ← batch_set.mapM (posGet (tm.df.rows.map Prod.snd))
  .ok (get_images stor ids, ys)

/-- The `Test` dataset state: just the id index of the
sample-submission file. -/
structure TestModel where
  index : List String
deriving DecidableEq, Repr

/-- The state `TestGenerator.__init__` stores. -/
structure TestGen where
  batch_size : ℕ
  batch_sets : List (List ℕ)
deriving DecidableEq, Repr

/-- `np.array_split(np.arange(n), k)`: `k` contiguous parts, the first
`n % k` of size `n / k + 1`, the rest of size `n / k`. -/
def arraySplit (n k : ℕ) : List (List ℕ) :=
  (List.range k).map (fun i =>
    let q := n / k
    let r := n % k
    let start := i * q + min i r
    let len := q + (if i < r then 1 else 0)
    (List.range len).map (fun t => start + t))

/-- `len(TestGenerator)`: `int(np.ceil(len(test.index) / float(batch_size)))`. -/
def TestGenerator_len (tt : TestModel) (g : TestGen) : ℕ :=
  ceilDivNat tt.index.length g.batch_size

/-- `TestGenerator.__init__` (via `Test.get_generator`):
`self.batch_sets = np.array_split(np.arange(len(test.index)), len(self))`.
A zero batch size would divide by zero in `__len__`, and
`np.array_split` rejects zero sections; both raise error. -/
def Test_get_generator (tt : TestModel) (bs : ℕ) : Except PyErr TestGen :=
  if bs = 0 then .error .valueError
  else
    let L := ceilDivNat tt.index.length bs
    if L = 0 then .error .valueError
    else .ok { batch_size := bs, batch_sets := arraySplit tt.index.length L }

/-- `TestGenerator.__getitem__(index)`: `batch_set = self.batch_sets[index]`
(Python list indexing), then `x_batch = test.get_images(test.index[batch_set])`. -/
def TestGenerator_getitem (tt : TestModel) (stor : Store) (g : TestGen)
    (i : ℤ) : Except PyErr (List Tensor3) := do
  let batch_set ← pyListGet g.batch_sets i
  let ids ← batch_set.mapM (posGet tt.index)
  .ok (get_images stor ids)

/-- Whether an `Except` result is a success (used to state that a call
did not raise). -/
def exceptOk {α : Type} : Except PyErr α → Bool
  | .ok _ => true
  | .error _ => false

/-- Number of folds that have not yet received any sample. -/
def uCount (k : ℕ) (A : List (ℕ × ℕ)) : ℕ :=
  ((List.range k).filter (fun f => decide (received A f = 0))).length

/-- The inductive invariant of the stratification loop: sample keys are
distinct, every assignment is in range, and after `j` assignments at most
`k - min j k` folds are still empty (each assignment made while some fold
is empty goes to an empty fold). -/
structure SInv (n k : ℕ) (A : List (ℕ × ℕ)) : Prop where
  nodupKeys : (A.map Prod.fst).Nodup
  bounds : ∀ p ∈ A, p.1 < n ∧ p.2 < k
  ucount : uCount k A + min A.length k ≤ k

/-! ### General list lemmas -/

theorem filter_length_succ_of_nodup {l : List ℕ} (hl : l.Nodup) {a : ℕ}
    (ha : a ∈ l) :
    (l.filter (fun x => !decide (x = a))).length + 1 = l.length := by
  induction l with
  | nil => cases ha
  | cons x xs ih =>
      rcases List.mem_cons.mp ha with rfl | hmem
      · have hxa : (fun w => !decide (w = a)) a = false := by simp
        have hnx : a ∉ xs := (List.nodup_cons.mp hl).1
        have hfe : xs.filter (fun w => !decide (w = a)) = xs := by
          apply List.filter_eq_self.mpr
          intro b hb
          simp only [Bool.not_eq_true', decide_eq_false_iff_not]
          intro hba; exact hnx (hba ▸ hb)
        simp [List.filter, hxa, hfe]
      · have hxs : xs.Nodup := (List.nodup_cons.mp hl).2
        by_cases hxa : x = a
        · exact absurd (hxa ▸ hmem) (List.nodup_cons.mp hl).1
        · have hx : (fun w => !decide (w = a)) x = true := by
            simp [hxa]
          have hih := ih hxs hmem
          simp only [List.filter, hx, List.length_cons]
          omega

theorem filter_pred_singleton {l : List ℕ} (hl : l.Nodup) {a : ℕ}
    (ha : a ∈ l) (p : ℕ → Bool) (hp : ∀ x, p x = true ↔ x = a) :
    l.filter p = [a] := by
  induction l with
  | nil => cases ha
  | cons x xs ih =>
      have hxs : xs.Nodup := (List.nodup_cons.mp hl).2
      rcases List.mem_cons.mp ha with rfl | hmem
      · have hx : p a = true := (hp a).mpr rfl
        have hnx : a ∉ xs := (List.nodup_cons.mp hl).1
        have hrest : xs.filter p = [] := by
          apply List.filter_eq_nil_iff.mpr
          intro b hb hpb
          exact hnx (((hp b).mp hpb) ▸ hb)
        simp [List.filter, hx, hrest]
      · have hxa : x ≠ a := by
          intro h; exact (List.nodup_cons.mp hl).1 (h ▸ hmem)
        have hx : p x = false := by
          cases h : p x with
          | false => rfl
          | true => exact absurd ((hp x).mp h) hxa
        simp [List.filter, hx, ih hxs hmem]

theorem exists_max_key (key : ℕ → ℤ) {l : List ℕ} (hl : l ≠ []) :
    ∃ x ∈ l, ∀ g ∈ l, key g ≤ key x := by
  induction l with
  | nil => cases hl rfl
  | cons x xs ih =>
      cases xs with
      | nil =>
          refine ⟨x, List.mem_cons_self _ _, ?_⟩
          intro g hg
          rcases List.mem_cons.mp hg with rfl | hg
          · exact le_refl _
          · cases hg
      | cons y ys =>
          obtain ⟨m, hm, hmax⟩ := ih (by simp)
          by_cases hc : key x ≤ key m
          · refine ⟨m, List.mem_cons_of_mem _ hm, ?_⟩
            intro g hg
            rcases List.mem_cons.mp hg with rfl | hg
            · exact hc
            · exact hmax g hg
          · refine ⟨x, List.mem_cons_self _ _, ?_⟩
            intro g hg
            rcases List.mem_cons.mp hg with rfl | hg
            · exact le_refl _
            · exact le_trans (hmax g hg) (le_of_not_le hc)

theorem maxSet_subset {key : ℕ → ℤ} {l : List ℕ} {x : ℕ}
    (hx : x ∈ maxSet key l) : x ∈ l :=
  List.mem_of_mem_filter hx

theorem maxSet_maximal {key : ℕ → ℤ} {l : List ℕ} {x : ℕ}
    (hx : x ∈ maxSet key l) : ∀ g ∈ l, key g ≤ key x := by
  have := (List.mem_filter.mp hx).2
  intro g hg
  have := List.all_eq_true.mp this g hg
  exact of_decide_eq_true this

theorem mem_maxSet {key : ℕ → ℤ} {l : List ℕ} {x : ℕ}
    (hx : x ∈ l) (hmax : ∀ g ∈ l, key g ≤ key x) : x ∈ maxSet key l := by
  apply List.mem_filter.mpr
  exact ⟨hx, List.all_eq_true.mpr (fun g hg => decide_eq_true (hmax g hg))⟩

theorem maxSet_ne_nil {key : ℕ → ℤ} {l : List ℕ} (hl : l ≠ []) :
    maxSet key l ≠ [] := by
  obtain ⟨x, hx, hmax⟩ := exists_max_key key hl
  intro h
  exact (List.eq_nil_iff_forall_not_mem.mp h x) (mem_maxSet hx hmax)

theorem headD_mem {l : List ℕ} (hl : l ≠ []) (d : ℕ) : l.headD d ∈ l := by
  cases l with
  | nil => cases hl rfl
  | cons x xs => exact List.mem_cons_self _ _

theorem pickOne_mem {o : ℕ → ℕ} {c : ℕ} {l : List ℕ} (hl : l ≠ []) :
    (pickOne o c l).1 ∈ l := by
  unfold pickOne
  by_cases h : l.length ≤ 1
  · simp only [h, if_pos]
    exact headD_mem hl 0
  · simp only [h, if_neg, not_false_iff]
    have hlen : 0 < l.length := List.length_pos.mpr hl
    have hmod : o c % l.length < l.length := Nat.mod_lt _ hlen
    rw [List.getD_eq_getElem?_getD, List.getElem?_eq_getElem hmod]
    simp only [Option.getD_some]
    exact List.get_mem l _ _

theorem filter_length_mono {l : List ℕ} {p q : ℕ → Bool}
    (h : ∀ a ∈ l, p a = true → q a = true) :
    (l.filter p).length ≤ (l.filter q).length := by
  induction l with
  | nil => simp
  | cons x xs ih =>
      have hx := h x (List.mem_cons_self _ _)
      have ih' := ih (fun a ha => h a (List.mem_cons_of_mem _ ha))
      cases hp : p x with
      | true =>
          have hq := hx hp
          simp only [List.filter, hp, hq, List.length_cons]
          omega
      | false =>
          cases hq : q x <;> simp only [List.filter, hp, hq, List.length_cons] <;> omega

/-! ### Assignment-history lemmas -/

theorem assigned_iff {A : List (ℕ × ℕ)} {s : ℕ} :
    assigned A s = true ↔ ∃ p ∈ A, p.1 = s := by
  unfold assigned
  rw [List.any_eq_true]
  constructor
  · rintro ⟨p, hp, hd⟩; exact ⟨p, hp, of_decide_eq_true hd⟩
  · rintro ⟨p, hp, hd⟩; exact ⟨p, hp, decide_eq_true hd⟩

theorem assigned_append {A : List (ℕ × ℕ)} {s f t : ℕ} :
    assigned (A ++ [(s, f)]) t = true ↔ assigned A t = true ∨ t = s := by
  rw [assigned_iff, assigned_iff]
  constructor
  · rintro ⟨p, hp, hpt⟩
    rcases List.mem_append.mp hp with h | h
    · exact Or.inl ⟨p, h, hpt⟩
    · have hps : p = (s, f) := by simpa using h
      subst hps
      exact Or.inr hpt.symm
  · rintro (⟨p, hp, hpt⟩ | rfl)
    · exact ⟨p, List.mem_append.mpr (Or.inl hp), hpt⟩
    · exact ⟨(t, f), List.mem_append.mpr (Or.inr (by simp)), rfl⟩

theorem received_append {A : List (ℕ × ℕ)} {s f g : ℕ} :
    received (A ++ [(s, f)]) g = received A g + (if f = g then 1 else 0) := by
  unfold received
  rw [List.filter_append, List.length_append]
  congr 1
  by_cases h : f = g
  · simp [List.filter, h]
  · simp [List.filter, h]

theorem received_eq_zero_iff {A : List (ℕ × ℕ)} {g : ℕ} :
    received A g = 0 ↔ ∀ p ∈ A, p.2 ≠ g := by
  unfold received
  simp [List.length_eq_zero, List.filter_eq_nil_iff]

theorem recLab_eq_zero {y : List (List ℕ)} {A : List (ℕ × ℕ)} {g j : ℕ}
    (h : received A g = 0) : recLab y A g j = 0 := by
  unfold recLab
  have hnil : A.filter (fun p => decide (p.2 = g)) = [] :=
    List.length_eq_zero.mp h
  rw [hnil]
  rfl

theorem cFolds_le {n k : ℕ} {A : List (ℕ × ℕ)} {f : ℕ} :
    cFolds n k A f ≤ (n : ℤ) := by
  unfold cFolds
  have : (0 : ℤ) ≤ (k : ℤ) * received A f := by positivity
  omega

theorem cFolds_of_received_zero {n k : ℕ} {A : List (ℕ × ℕ)} {f : ℕ}
    (h : received A f = 0) : cFolds n k A f = (n : ℤ) := by
  unfold cFolds
  rw [h]
  simp

theorem received_zero_of_cFolds {n k : ℕ} {A : List (ℕ × ℕ)} {f : ℕ}
    (hk : 0 < k) (h : (n : ℤ) ≤ cFolds n k A f) : received A f = 0 := by
  unfold cFolds at h
  by_contra hne
  have h1 : 1 ≤ received A f := Nat.one_le_iff_ne_zero.mpr hne
  have : (k : ℤ) ≤ (k : ℤ) * received A f := by
    calc (k : ℤ) = (k : ℤ) * 1 := by ring
    _ ≤ (k : ℤ) * received A f := by
        apply mul_le_mul_of_nonneg_left _ (by positivity)
        exact_mod_cast h1
  have hkpos : (0 : ℤ) < k := by exact_mod_cast hk
  omega

theorem cFoldsLabels_le {y : List (List ℕ)} {k : ℕ} {A : List (ℕ × ℕ)}
    {f j : ℕ} : cFoldsLabels y k A f j ≤ (colSum y j : ℤ) := by
  unfold cFoldsLabels
  have : (0 : ℤ) ≤ (k : ℤ) * recLab y A f j := by positivity
  omega

theorem cFoldsLabels_of_received_zero {y : List (List ℕ)} {k : ℕ}
    {A : List (ℕ × ℕ)} {f j : ℕ} (h : received A f = 0) :
    cFoldsLabels y k A f j = (colSum y j : ℤ) := by
  unfold cFoldsLabels
  rw [recLab_eq_zero h]
  simp

theorem mem_unassigned {n : ℕ} {A : List (ℕ × ℕ)} {t : ℕ} :
    t ∈ unassignedList n A ↔ t < n ∧ assigned A t = false := by
  unfold unassignedList
  rw [List.mem_filter, List.mem_range]
  simp [Bool.not_eq_true']

theorem unassigned_nodup {n : ℕ} {A : List (ℕ × ℕ)} :
    (unassignedList n A).Nodup :=
  List.Nodup.filter _ (List.nodup_range n)

theorem uCount_append_le {k : ℕ} {A : List (ℕ × ℕ)} {s f : ℕ} :
    uCount k (A ++ [(s, f)]) ≤ uCount k A := by
  unfold uCount
  apply filter_length_mono
  intro a _ ha
  rw [decide_eq_true_eq] at ha ⊢
  have := received_append (A := A) (s := s) (f := f) (g := a)
  omega

theorem uCount_append_drop {k : ℕ} {A : List (ℕ × ℕ)} {s c : ℕ}
    (hc : c < k) (h0 : received A c = 0) :
    uCount k (A ++ [(s, c)]) + 1 = uCount k A := by
  unfold uCount
  have hcong : (List.range k).filter (fun f => decide (received (A ++ [(s, c)]) f = 0))
      = ((List.range k).filter (fun f => decide (received A f = 0))).filter
          (fun f => !decide (f = c)) := by
    rw [List.filter_filter]
    apply List.filter_congr
    intro f _
    by_cases hfc : f = c
    · rw [hfc]
      have hr := received_append (A := A) (s := s) (f := c) (g := c)
      simp only [if_pos rfl] at hr
      simp [hr, h0]
    · have hr := received_append (A := A) (s := s) (f := c) (g := f)
      rw [if_neg (fun h => hfc h.symm)] at hr
      simp [hr, hfc]
  rw [hcong]
  apply filter_length_succ_of_nodup
  · exact List.Nodup.filter _ (List.nodup_range k)
  · exact List.mem_filter.mpr ⟨List.mem_range.mpr hc, decide_eq_true h0⟩

theorem uCount_ne_zero_iff {k : ℕ} {A : List (ℕ × ℕ)} :
    uCount k A ≠ 0 ↔ ∃ f, f < k ∧ received A f = 0 := by
  unfold uCount
  rw [Ne, List.length_eq_zero]
  constructor
  · intro h
    rcases List.exists_mem_of_ne_nil _ h with ⟨f, hf⟩
    have := List.mem_filter.mp hf
    exact ⟨f, List.mem_range.mp this.1, of_decide_eq_true this.2⟩
  · rintro ⟨f, hfk, hf0⟩ hnil
    have : f ∈ (List.range k).filter (fun f => decide (received A f = 0)) :=
      List.mem_filter.mpr ⟨List.mem_range.mpr hfk, decide_eq_true hf0⟩
    rw [hnil] at this
    cases this

theorem listMinNat_cons (x : ℕ) (xs : List ℕ) :
    listMinNat (x :: xs) = xs.foldl min x := rfl

theorem foldl_min_mem : ∀ (xs : List ℕ) (x : ℕ), xs.foldl min x ∈ x :: xs := by
  intro xs
  induction xs with
  | nil => intro x; simp
  | cons y ys ih =>
      intro x
      rw [List.foldl_cons]
      rcases List.mem_cons.mp (ih (min x y)) with h | h
      · rw [h]
        rcases Nat.le_total x y with hxy | hxy
        · rw [min_eq_left hxy]; exact List.mem_cons_self _ _
        · rw [min_eq_right hxy]
          exact List.mem_cons_of_mem _ (List.mem_cons_self _ _)
      · exact List.mem_cons_of_mem _ (List.mem_cons_of_mem _ h)

theorem foldl_min_le : ∀ (xs : List ℕ) (x : ℕ),
    xs.foldl min x ≤ x ∧ ∀ w ∈ xs, xs.foldl min x ≤ w := by
  intro xs
  induction xs with
  | nil => intro x; exact ⟨le_refl _, by intro w hw; cases hw⟩
  | cons y ys ih =>
      intro x
      rw [List.foldl_cons]
      obtain ⟨h1, h2⟩ := ih (min x y)
      refine ⟨le_trans h1 (min_le_left _ _), ?_⟩
      intro w hw
      rcases List.mem_cons.mp hw with rfl | hw'
      · exact le_trans h1 (min_le_right _ _)
      · exact h2 w hw'

theorem listMinNat_mem {l : List ℕ} (hl : l ≠ []) : listMinNat l ∈ l := by
  cases l with
  | nil => cases hl rfl
  | cons x xs =>
      rw [listMinNat_cons]
      exact foldl_min_mem xs x

theorem listMinNat_le {l : List ℕ} : ∀ x ∈ l, listMinNat l ≤ x := by
  cases l with
  | nil => intro x hx; cases hx
  | cons a xs =>
      intro x hx
      rw [listMinNat_cons]
      rcases List.mem_cons.mp hx with rfl | hx'
      · exact (foldl_min_le xs x).1
      · exact (foldl_min_le xs a).2 x hx'

theorem foldl_add_eq_sum (g : ℕ → ℕ) :
    ∀ (l : List ℕ) (a : ℕ), l.foldl (fun acc s => acc + g s) a = a + (l.map g).sum := by
  intro l
  induction l with
  | nil => intro a; simp
  | cons x xs ih =>
      intro a
      rw [List.foldl_cons, ih, List.map_cons, List.sum_cons]
      omega

theorem numLabels_pos_exists {y : List (List ℕ)} {U : List ℕ} {j : ℕ}
    (h : 0 < numLabels y U j) : ∃ s ∈ U, 0 < lab y s j := by
  unfold numLabels at h
  rw [foldl_add_eq_sum, Nat.zero_add] at h
  by_contra hcon
  push_neg at hcon
  have : (U.map (fun s => lab y s j)).sum = 0 := by
    apply List.sum_eq_zero
    intro x hx
    rcases List.mem_map.mp hx with ⟨s, hs, rfl⟩
    exact Nat.le_zero.mp (hcon s hs)
  omega

/-! ### Chooser lemmas: every assignment made while some fold is still
empty goes to a fold that is itself still empty (the knock-out property
behind batch non-emptiness). -/

theorem assignOne_chosen (y : List (List ℕ)) (n k : ℕ) (o : ℕ → ℕ) (L : ℕ)
    (st : List (ℕ × ℕ) × ℕ) (s : ℕ) (hk : 0 < k) :
    ∃ c cnt, assignOne y n k o L st s = (st.1 ++ [(s, c)], cnt) ∧ c < k ∧
      (uCount k st.1 ≠ 0 → received st.1 c = 0) := by
  have hrange : (List.range k) ≠ [] := by
    intro h
    have := List.mem_range.mpr hk
    rw [h] at this
    cases this
  have hS1ne : maxSet (fun f => cFoldsLabels y k st.1 f L) (List.range k) ≠ [] :=
    maxSet_ne_nil hrange
  have hS2ne : maxSet (fun f => cFolds n k st.1 f)
      (maxSet (fun f => cFoldsLabels y k st.1 f L) (List.range k)) ≠ [] :=
    maxSet_ne_nil hS1ne
  refine ⟨_, _, rfl, ?_, ?_⟩
  · have hmem := pickOne_mem (o := o) (c := st.2) hS2ne
    exact List.mem_range.mp (maxSet_subset (maxSet_subset hmem))
  · intro hu
    obtain ⟨f, hfk, hf0⟩ := uCount_ne_zero_iff.mp hu
    -- f attains the maximal c_folds_labels value, so it survives into S1
    have hfS1 : f ∈ maxSet (fun w => cFoldsLabels y k st.1 w L) (List.range k) := by
      apply mem_maxSet (List.mem_range.mpr hfk)
      intro g _
      calc cFoldsLabels y k st.1 g L ≤ (colSum y L : ℤ) := cFoldsLabels_le
        _ = cFoldsLabels y k st.1 f L := (cFoldsLabels_of_received_zero hf0).symm
    have hmem := pickOne_mem (o := o) (c := st.2) hS2ne
    -- the chosen fold dominates f on c_folds, hence is itself empty
    have hdom := maxSet_maximal hmem f hfS1
    apply received_zero_of_cFolds hk
    calc (n : ℤ) = cFolds n k st.1 f := (cFolds_of_received_zero hf0).symm
      _ ≤ cFolds n k st.1 _ := hdom

theorem fallbackAssign_chosen (n k : ℕ) (st : List (ℕ × ℕ) × ℕ) (s : ℕ)
    (hk : 0 < k) :
    ∃ c cnt, fallbackAssign n k st s = (st.1 ++ [(s, c)], cnt) ∧ c < k ∧
      (uCount k st.1 ≠ 0 → received st.1 c = 0) := by
  have hrange : (List.range k) ≠ [] := by
    intro h
    have := List.mem_range.mpr hk
    rw [h] at this
    cases this
  have hMne : maxSet (fun g => cFolds n k st.1 g) (List.range k) ≠ [] :=
    maxSet_ne_nil hrange
  refine ⟨_, _, rfl, ?_, ?_⟩
  · have hmem := headD_mem hMne 0
    exact List.mem_range.mp (maxSet_subset hmem)
  · intro hu
    obtain ⟨f, hfk, hf0⟩ := uCount_ne_zero_iff.mp hu
    have hmem := headD_mem hMne 0
    have hdom := maxSet_maximal hmem f (List.mem_range.mpr hfk)
    apply received_zero_of_cFolds hk
    calc (n : ℤ) = cFolds n k st.1 f := (cFolds_of_received_zero hf0).symm
      _ ≤ cFolds n k st.1 _ := hdom

theorem SInv_append {n k : ℕ} {A : List (ℕ × ℕ)} {s c : ℕ}
    (hI : SInv n k A) (hs : s < n) (hna : assigned A s = false) (hc : c < k)
    (hko : uCount k A ≠ 0 → received A c = 0) :
    SInv n k (A ++ [(s, c)]) := by
  constructor
  · rw [List.map_append]
    apply List.Nodup.append hI.nodupKeys (by simp)
    intro a ha hb
    simp only [List.map_cons, List.map_nil, List.mem_singleton] at hb
    rcases List.mem_map.mp ha with ⟨p, hp, hps⟩
    have : assigned A s = true := assigned_iff.mpr ⟨p, hp, hps.trans hb⟩
    rw [hna] at this
    cases this
  · intro p hp
    rcases List.mem_append.mp hp with h | h
    · exact hI.bounds p h
    · have : p = (s, c) := by simpa using h
      subst this
      exact ⟨hs, hc⟩
  · have hlen : (A ++ [(s, c)]).length = A.length + 1 := by simp
    by_cases h0 : uCount k A = 0
    · have h1 : uCount k (A ++ [(s, c)]) ≤ uCount k A := uCount_append_le
      have h2 := hI.ucount
      rw [hlen]
      omega
    · have h1 : uCount k (A ++ [(s, c)]) + 1 = uCount k A :=
        uCount_append_drop hc (hko h0)
      have h2 := hI.ucount
      rw [hlen]
      omega

theorem foldl_assign_inv {n k : ℕ}
    (stepF : (List (ℕ × ℕ) × ℕ) → ℕ → (List (ℕ × ℕ) × ℕ))
    (hstep : ∀ st s, ∃ c cnt, stepF st s = (st.1 ++ [(s, c)], cnt) ∧ c < k ∧
      (uCount k st.1 ≠ 0 → received st.1 c = 0)) :
    ∀ (S : List ℕ) (st : List (ℕ × ℕ) × ℕ),
      SInv n k st.1 → S.Nodup →
      (∀ t ∈ S, t < n ∧ assigned st.1 t = false) →
      SInv n k (S.foldl stepF st).1 ∧
      (∀ t, assigned (S.foldl stepF st).1 t = true ↔
        assigned st.1 t = true ∨ t ∈ S) := by
  intro S
  induction S with
  | nil =>
      intro st hI _ _
      exact ⟨hI, by simp⟩
  | cons s S ih =>
      intro st hI hnd hS
      obtain ⟨c, cnt, heq, hc, hko⟩ := hstep st s
      have hs := hS s (List.mem_cons_self _ _)
      have hI' : SInv n k (st.1 ++ [(s, c)]) :=
        SInv_append hI hs.1 hs.2 hc hko
      have hS' : ∀ t ∈ S, t < n ∧ assigned (st.1 ++ [(s, c)]) t = false := by
        intro t ht
        have h1 := hS t (List.mem_cons_of_mem _ ht)
        refine ⟨h1.1, ?_⟩
        rw [Bool.eq_false_iff]
        intro htrue
        rcases assigned_append.mp htrue with h | h
        · rw [h1.2] at h; cases h
        · subst h
          exact (List.nodup_cons.mp hnd).1 ht
      have hnd' := (List.nodup_cons.mp hnd).2
      rw [List.foldl_cons, heq]
      obtain ⟨hIfin, hafin⟩ := ih (st.1 ++ [(s, c)], cnt) hI' hnd' hS'
      refine ⟨hIfin, ?_⟩
      intro t
      rw [hafin t]
      simp only [List.mem_cons]
      rw [assigned_append]
      tauto

theorem isEmpty_true_iff {α : Type} {l : List α} : l.isEmpty = true ↔ l = [] := by
  cases l <;> simp

theorem unassigned_eq_filter {n : ℕ} {A B : List (ℕ × ℕ)} {S : List ℕ}
    (h : ∀ t, assigned B t = true ↔ assigned A t = true ∨ t ∈ S) :
    unassignedList n B = (unassignedList n A).filter (fun t => !decide (t ∈ S)) := by
  unfold unassignedList
  rw [List.filter_filter]
  apply List.filter_congr
  intro t _
  cases hB : assigned B t with
  | true =>
      rcases (h t).mp hB with h1 | h1
      · simp [h1]
      · simp [h1]
  | false =>
      have h2 : assigned A t = false := by
        cases hA : assigned A t with
        | false => rfl
        | true =>
            have := (h t).mpr (Or.inl hA)
            rw [hB] at this; cases this
      have h3 : t ∉ S := by
        intro hc
        have := (h t).mpr (Or.inr hc)
        rw [hB] at this; cases this
      simp [h2, h3]

/-- Main loop invariant: starting from a valid state with at most `fuel`
unassigned samples, the loop returns a valid history with every sample
assigned. -/
theorem strataLoop_inv {y : List (List ℕ)} {d n k : ℕ} {o : ℕ → ℕ}
    (hk : 2 ≤ k) :
    ∀ (fuel : ℕ) (st : List (ℕ × ℕ) × ℕ), SInv n k st.1 →
      (unassignedList n st.1).length ≤ fuel →
      SInv n k (strataLoop y d n k o fuel st) ∧
      unassignedList n (strataLoop y d n k o fuel st) = [] := by
  intro fuel
  induction fuel with
  | zero =>
      intro st hI hlen
      have h0 : unassignedList n st.1 = [] :=
        List.length_eq_zero.mp (Nat.le_zero.mp hlen)
      exact ⟨hI, h0⟩
  | succ fuel ih =>
      intro st hI hlen
      have hk1 : 0 < k := lt_of_lt_of_le (by norm_num) hk
      by_cases hU : (unassignedList n st.1).isEmpty
      · have h0 : unassignedList n st.1 = [] := isEmpty_true_iff.mp hU
        simp only [strataLoop]
        rw [if_pos hU]
        exact ⟨hI, h0⟩
      · simp only [strataLoop]
        rw [if_neg hU]
        by_cases hP : ((List.range d).filter
            (fun j => decide (0 < numLabels y (unassignedList n st.1) j))).isEmpty
        · rw [if_pos hP]
          obtain ⟨hIf, hass⟩ := foldl_assign_inv (fallbackAssign n k)
            (fun st' s => fallbackAssign_chosen n k st' s hk1)
            (unassignedList n st.1) st hI unassigned_nodup
            (fun t ht => mem_unassigned.mp ht)
          refine ⟨hIf, ?_⟩
          rw [unassigned_eq_filter hass]
          apply List.eq_nil_iff_forall_not_mem.mpr
          intro t ht
          have h1 := List.mem_filter.mp ht
          have h2 := h1.2
          simp only [Bool.not_eq_true', decide_eq_false_iff_not] at h2
          exact h2 h1.1
        · rw [if_neg hP]
          set U := unassignedList n st.1 with hUdef
          set M := listMinNat (((List.range d).filter
            (fun j => decide (0 < numLabels y U j))).map (numLabels y U)) with hM
          set C := (List.range d).filter
            (fun j => decide (numLabels y U j = M)) with hC
          set L := (pickOne o st.2 C).1 with hLd
          set S := U.filter (fun s => decide (0 < lab y s L)) with hSd
          -- the chosen label has positive remaining mass, so the sample
          -- list of this pass is non-empty
          have hposJne : (List.range d).filter
              (fun j => decide (0 < numLabels y U j)) ≠ [] :=
            fun h => hP (by rw [h]; rfl)
          have hmapne : ((List.range d).filter
              (fun j => decide (0 < numLabels y U j))).map (numLabels y U) ≠ [] := by
            intro h
            exact hposJne (List.map_eq_nil_iff.mp h)
          obtain ⟨j0, hj0mem, hj0val⟩ := List.mem_map.mp (hM ▸ listMinNat_mem hmapne)
          have hj0pos : 0 < numLabels y U j0 :=
            of_decide_eq_true (List.mem_filter.mp hj0mem).2
          have hmpos : 0 < M := by rw [← hj0val]; exact hj0pos
          have hcandsne : C ≠ [] := by
            intro h
            have hj0in : j0 ∈ C := by
              rw [hC]
              apply List.mem_filter.mpr
              exact ⟨(List.mem_filter.mp hj0mem).1, decide_eq_true hj0val⟩
            rw [h] at hj0in
            cases hj0in
          have hLmem : L ∈ C := hLd ▸ pickOne_mem (o := o) (c := st.2) hcandsne
          have hLval : numLabels y U L = M := by
            have := (List.mem_filter.mp (hC ▸ hLmem)).2
            exact of_decide_eq_true this
          have hLpos : 0 < numLabels y U L := by rw [hLval]; exact hmpos
          obtain ⟨s0, hs0U, hs0lab⟩ := numLabels_pos_exists hLpos
          -- run the per-sample fold
          obtain ⟨hIf, hass⟩ := foldl_assign_inv (assignOne y n k o L)
            (fun st' s => assignOne_chosen y n k o L st' s hk1)
            S (st.1, (pickOne o st.2 C).2)
            hI (List.Nodup.filter _ unassigned_nodup)
            (fun t ht => mem_unassigned.mp (List.mem_of_mem_filter (hSd ▸ ht)))
          have hs0S : s0 ∈ S := by
            rw [hSd]
            exact List.mem_filter.mpr ⟨hs0U, decide_eq_true hs0lab⟩
          have hlt : (unassignedList n
              (S.foldl (assignOne y n k o L) (st.1, (pickOne o st.2 C).2)).1).length <
              (unassignedList n st.1).length := by
            rw [unassigned_eq_filter hass]
            refine (List.length_filter_lt_length_iff_exists).mpr ⟨s0, hUdef ▸ hs0U, ?_⟩
            simp [hs0S]
          have hlen' : (unassignedList n st.1).length ≤ fuel + 1 := hUdef ▸ hlen
          apply ih
          · exact hIf
          · omega

theorem uCount_le {k : ℕ} {A : List (ℕ × ℕ)} : uCount k A ≤ k := by
  unfold uCount
  calc ((List.range k).filter _).length ≤ (List.range k).length :=
        List.length_filter_le _ _
    _ = k := List.length_range k

theorem keyUnique {A : List (ℕ × ℕ)} (hnd : (A.map Prod.fst).Nodup) :
    ∀ p ∈ A, ∀ q ∈ A, p.1 = q.1 → p = q := by
  induction A with
  | nil => intro p hp; cases hp
  | cons r A ih =>
      intro p hp q hq hpq
      have hnd' : (A.map Prod.fst).Nodup := (List.nodup_cons.mp hnd).2
      have hrn : r.1 ∉ A.map Prod.fst := (List.nodup_cons.mp hnd).1
      rcases List.mem_cons.mp hp with rfl | hp' <;>
        rcases List.mem_cons.mp hq with rfl | hq'
      · rfl
      · exact absurd (List.mem_map.mpr ⟨q, hq', hpq.symm⟩) hrn
      · exact absurd (List.mem_map.mpr ⟨p, hp', hpq⟩) hrn
      · exact ih hnd' p hp' q hq' hpq

/-- The fold assignment produced by the full stratification run: valid
history, every sample assigned, every fold non-empty. -/
theorem stratification_props (y : List (List ℕ)) (d k : ℕ) (o : ℕ → ℕ)
    (hk : 2 ≤ k) (hkn : k ≤ y.length) :
    SInv y.length k (iterativeStratification y d k o) ∧
    (∀ s, s < y.length → assigned (iterativeStratification y d k o) s = true) ∧
    (∀ f, f < k → received (iterativeStratification y d k o) f ≠ 0) := by
  have base : SInv y.length k ([] : List (ℕ × ℕ)) := by
    constructor
    · simp
    · intro p hp; cases hp
    · have h1 : uCount k ([] : List (ℕ × ℕ)) ≤ k := uCount_le
      simp only [List.length_nil]
      omega
  have hfuel : (unassignedList y.length (([], 0) : List (ℕ × ℕ) × ℕ).1).length ≤
      y.length := by
    unfold unassignedList
    calc ((List.range y.length).filter _).length ≤ (List.range y.length).length :=
          List.length_filter_le _ _
      _ = y.length := List.length_range _
  obtain ⟨hIf, hunil⟩ := strataLoop_inv (y := y) (d := d) (o := o) hk
    y.length ([], 0) base hfuel
  have hIf' : SInv y.length k (iterativeStratification y d k o) := hIf
  have hunil' : unassignedList y.length (iterativeStratification y d k o) = [] :=
    hunil
  have hass : ∀ s, s < y.length →
      assigned (iterativeStratification y d k o) s = true := by
    intro s hs
    cases hA : assigned (iterativeStratification y d k o) s with
    | true => rfl
    | false =>
        have : s ∈ unassignedList y.length (iterativeStratification y d k o) :=
          mem_unassigned.mpr ⟨hs, hA⟩
        rw [hunil'] at this
        cases this
  refine ⟨hIf', hass, ?_⟩
  -- the history contains all of range n, so it has at least k entries
  have hsub : List.range y.length ⊆
      (iterativeStratification y d k o).map Prod.fst := by
    intro s hs
    obtain ⟨p, hp, hps⟩ := assigned_iff.mp (hass s (List.mem_range.mp hs))
    exact List.mem_map.mpr ⟨p, hp, hps⟩
  have hlenA : y.length ≤ (iterativeStratification y d k o).length := by
    have := List.Subperm.length_le (List.Nodup.subperm (List.nodup_range _) hsub)
    simpa using this
  have huc := hIf'.ucount
  have huc0 : uCount k (iterativeStratification y d k o) = 0 := by
    have hmin : min (iterativeStratification y d k o).length k = k := by
      apply min_eq_right
      omega
    omega
  intro f hfk hf0
  have : uCount k (iterativeStratification y d k o) ≠ 0 :=
    uCount_ne_zero_iff.mpr ⟨f, hfk, hf0⟩
  exact this huc0

theorem foldOf_lt {A : List (ℕ × ℕ)} {n k s : ℕ} (hI : SInv n k A)
    (hass : assigned A s = true) : foldOf A s < k := by
  obtain ⟨p, hp, hps⟩ := assigned_iff.mp hass
  have hsome : (A.find? (fun q => decide (q.1 = s))).isSome = true :=
    List.find?_isSome.mpr ⟨p, hp, decide_eq_true hps⟩
  obtain ⟨q, hq⟩ := Option.isSome_iff_exists.mp hsome
  have hqA : q ∈ A := List.mem_of_find?_eq_some hq
  unfold foldOf
  rw [hq]
  exact (hI.bounds q hqA).2

theorem foldOf_eq_of_mem {A : List (ℕ × ℕ)} (hnd : (A.map Prod.fst).Nodup)
    {p : ℕ × ℕ} (hp : p ∈ A) : foldOf A p.1 = p.2 := by
  have hsome : (A.find? (fun q => decide (q.1 = p.1))).isSome = true :=
    List.find?_isSome.mpr ⟨p, hp, decide_eq_true rfl⟩
  obtain ⟨q, hq⟩ := Option.isSome_iff_exists.mp hsome
  have hqA : q ∈ A := List.mem_of_find?_eq_some hq
  have hqs : q.1 = p.1 :=
    of_decide_eq_true (List.find?_some (p := fun (w : ℕ × ℕ) => decide (w.1 = p.1)) hq)
  have : q = p := keyUnique hnd q hqA p hp hqs
  unfold foldOf
  rw [hq, this]
  rfl

/-- The batch partition property of the stratified splitter: the fold
test sets are `k` lists that are non-empty, duplicate-free, stay inside
the index range, and contain every sample position exactly once. -/
theorem mskfTestFolds_partition (y : List (List ℕ)) (d k : ℕ) (o : ℕ → ℕ)
    (hk : 2 ≤ k) (hkn : k ≤ y.length) :
    (mskfTestFolds y d k o).length = k ∧
    (∀ s, s < y.length →
      ((mskfTestFolds y d k o).filter (fun b => decide (s ∈ b))).length = 1) ∧
    (∀ b ∈ mskfTestFolds y d k o, b ≠ [] ∧ b.Nodup) ∧
    (∀ b ∈ mskfTestFolds y d k o, ∀ s ∈ b, s < y.length) := by
  obtain ⟨hI, hass, hrec⟩ := stratification_props y d k o hk hkn
  refine ⟨?_, ?_, ?_, ?_⟩
  · simp [mskfTestFolds]
  · intro s hs
    unfold mskfTestFolds
    rw [List.filter_map]
    rw [List.length_map]
    have hcong : (List.range k).filter ((fun b => decide (s ∈ b)) ∘
        (fun i => (List.range y.length).filter
          (fun t => decide (foldOf (iterativeStratification y d k o) t = i)))) =
        (List.range k).filter
          (fun i => decide (foldOf (iterativeStratification y d k o) s = i)) := by
      apply List.filter_congr
      intro i _
      apply decide_eq_decide.mpr
      constructor
      · intro hmem
        exact of_decide_eq_true (List.mem_filter.mp hmem).2
      · intro hfold
        exact List.mem_filter.mpr ⟨List.mem_range.mpr hs, decide_eq_true hfold⟩
    rw [hcong]
    have hflt : foldOf (iterativeStratification y d k o) s < k :=
      foldOf_lt hI (hass s hs)
    rw [filter_pred_singleton (List.nodup_range k) (List.mem_range.mpr hflt)
      _ (by intro x; rw [decide_eq_true_eq]; exact eq_comm)]
    rfl
  · intro b hb
    unfold mskfTestFolds at hb
    obtain ⟨i, hi, hbi⟩ := List.mem_map.mp hb
    constructor
    · have hne := hrec i (List.mem_range.mp hi)
      have : ∃ p ∈ iterativeStratification y d k o, p.2 = i := by
        by_contra hcon
        push_neg at hcon
        exact hne (received_eq_zero_iff.mpr hcon)
      obtain ⟨p, hp, hpi⟩ := this
      have hs : p.1 < y.length := (hI.bounds p hp).1
      have hfold : foldOf (iterativeStratification y d k o) p.1 = i :=
        (foldOf_eq_of_mem hI.nodupKeys hp).trans hpi
      intro hnil
      have : p.1 ∈ b := by
        rw [← hbi]
        exact List.mem_filter.mpr ⟨List.mem_range.mpr hs, decide_eq_true hfold⟩
      rw [hnil] at this
      cases this
    · rw [← hbi]
      exact List.Nodup.filter _ (List.nodup_range _)
  · intro b hb s hsb
    unfold mskfTestFolds at hb
    obtain ⟨i, hi, hbi⟩ := List.mem_map.mp hb
    rw [← hbi] at hsb
    exact List.mem_range.mp (List.mem_filter.mp hsb).1

/-! ### TrainGenerator constructor lemmas -/

theorem TrainGenerator_init_ok {tl : List (List ℕ)} {ts : List ℕ} {bs : ℕ}
    {o : ℕ → ℕ} (h : 33 ≤ ts.length) :
    TrainGenerator_init tl ts bs o = .ok
      { batch_size := 32, train_set := ts, n_splits := ceilDivNat ts.length 32,
        batch_sets := mskfTestFolds (ts.map (fun s => tl.getD s [])) 28
          (ceilDivNat ts.length 32) o } := by
  have h1 : ¬(ceilDivNat ts.length 32 < 2) := by unfold ceilDivNat; omega
  have h2 : ¬(ts.length < ceilDivNat ts.length 32) := by unfold ceilDivNat; omega
  simp only [TrainGenerator_init]
  rw [if_neg h1, if_neg h2]

theorem TrainGenerator_init_err {tl : List (List ℕ)} {ts : List ℕ} {bs : ℕ}
    {o : ℕ → ℕ} (h : ts.length ≤ 32) :
    TrainGenerator_init tl ts bs o = .error .valueError := by
  have h1 : ceilDivNat ts.length 32 < 2 := by unfold ceilDivNat; omega
  simp only [TrainGenerator_init]
  rw [if_pos h1]

theorem TrainGenerator_init_fields {tl : List (List ℕ)} {ts : List ℕ}
    {bs : ℕ} {o : ℕ → ℕ} {g : TrainGen}
    (h : TrainGenerator_init tl ts bs o = .ok g) :
    g.batch_size = 32 ∧ g.train_set = ts ∧
    g.n_splits = ceilDivNat ts.length 32 ∧
    g.batch_sets = mskfTestFolds (ts.map (fun s => tl.getD s [])) 28
      (ceilDivNat ts.length 32) o := by
  simp only [TrainGenerator_init] at h
  split at h
  · cases h
  · split at h
    · cases h
    · injection h with h
      subst h
      exact ⟨rfl, rfl, rfl, rfl⟩

/-! ### Claim theorems -/

/-- C1, counterexample: for a training subset of 10 samples and batch
size B = 32 we have n = 10 < 2B, where the claim asserts the partitioner
clamps `n_splits` to 2 and "produces exactly 2 (larger) batches rather
than erroring".  The code has no clamp: it computes
`n_splits = ceil(10/32) = 1`, which the k-fold constructor rejects, so
`TrainGenerator.__init__` raises `ValueError` instead of producing two
batches. -/
theorem C1_counterexample :
    TrainGenerator_init [] (List.range 10) 32 (fun _ => 0) =
      .error PyErr.valueError ∧
    ceilDivNat (List.range 10).length 32 = 1 ∧ (1 : ℕ) ≠ 2 := by
  refine ⟨?_, by decide, by decide⟩
  apply TrainGenerator_init_err
  decide

/-- C1, amended: `TrainGenerator.__init__` computes
`n_splits = ceil(n/32)` with NO minimum-2 clamp.  When `n ≤ 32` the
computed `n_splits ≤ 1` is rejected by the k-fold constructor and
construction errors; when `n ≥ 33` construction succeeds, the stored
`n_splits` and the number of produced batches are both exactly
`ceil(n/32)`, and in the degenerate range `32 < n ≤ 64` that is exactly
2 (larger) batches. -/
theorem C1_theorem : ∀ (tl : List (List ℕ)) (ts : List ℕ) (bs : ℕ) (o : ℕ → ℕ),
    ((TrainGenerator_init tl ts bs o).map (fun g => g.n_splits) =
      if ts.length ≤ 32 then .error PyErr.valueError
      else .ok (ceilDivNat ts.length 32)) ∧
    ((TrainGenerator_init tl ts bs o).map (fun g => g.batch_sets.length) =
      if ts.length ≤ 32 then .error PyErr.valueError
      else .ok (ceilDivNat ts.length 32)) ∧
    (32 < ts.length → ts.length ≤ 64 →
      (TrainGenerator_init tl ts bs o).map (fun g => g.n_splits) = .ok 2) := by
  intro tl ts bs o
  by_cases h : ts.length ≤ 32
  · rw [TrainGenerator_init_err h]
    refine ⟨by rw [if_pos h]; rfl, by rw [if_pos h]; rfl, ?_⟩
    intro h1 _
    omega
  · push_neg at h
    have h33 : 33 ≤ ts.length := h
    rw [TrainGenerator_init_ok h33]
    have hnot : ¬(ts.length ≤ 32) := by omega
    refine ⟨by rw [if_neg hnot]; rfl, ?_, ?_⟩
    · rw [if_neg hnot]
      simp [Except.map, mskfTestFolds]
    · intro _ h64
      have : ceilDivNat ts.length 32 = 2 := by unfold ceilDivNat; omega
      simp [Except.map, this]

/-- C1, witness for the amended theorem at n = 40 (degenerate range
32 < n ≤ 64): construction succeeds with exactly 2 splits. -/
theorem C1_witness :
    (TrainGenerator_init [] (List.range 40) 0 (fun _ => 0)).map
      (fun g => g.n_splits) = .ok 2 :=
  (C1_theorem [] (List.range 40) 0 (fun _ => 0)).2.2 (by decide) (by decide)

/-- C2: the `batch_size` argument of `TrainGenerator.__init__` is ignored
(the source re-assigns `self.batch_size = 32`): two constructions differing
only in `batch_size` are identical, the stored effective batch size is the
constant 32, and `Train.train_test_split`'s forwarded `batch_size` has no
effect on its result either. -/
theorem C2_theorem : ∀ (tl : List (List ℕ)) (ts : List ℕ)
    (o oS o1 o2 : ℕ → ℕ) (bs bs' k0 : ℕ),
    TrainGenerator_init tl ts bs o = TrainGenerator_init tl ts bs' o ∧
    (TrainGenerator_init tl ts bs o).map (fun g => g.batch_size) =
      (TrainGenerator_init tl ts bs o).map (fun _ => 32) ∧
    train_test_split tl k0 bs oS o1 o2 = train_test_split tl k0 bs' oS o1 o2 := by
  intro tl ts o oS o1 o2 bs bs' k0
  refine ⟨rfl, ?_, rfl⟩
  cases h : TrainGenerator_init tl ts bs o with
  | error e => rfl
  | ok g =>
      have := (TrainGenerator_init_fields h).1
      simp [Except.map, this]

/-- C3: for every training index subset on which construction succeeds
(n ≥ 33, so that the k-fold constructor accepts the split count), and for
every tie-break oracle, the batches produced by the stratified batch
partitioner are a partition of the position set `{0, ..., n-1}` of the
subset: there are `n_splits` batches, every position lies in exactly one
batch, every batch is non-empty and duplicate-free, and batches contain
only positions of the subset. -/
theorem C3_theorem (o : ℕ → ℕ) (tl : List (List ℕ)) (ts : List ℕ) (bs : ℕ)
    (hn : 33 ≤ ts.length) :
    ∃ g, TrainGenerator_init tl ts bs o = .ok g ∧
      g.batch_sets.length = g.n_splits ∧
      (∀ s, s < ts.length →
        (g.batch_sets.filter (fun b => decide (s ∈ b))).length = 1) ∧
      (∀ b ∈ g.batch_sets, b ≠ [] ∧ b.Nodup) ∧
      (∀ b ∈ g.batch_sets, ∀ s ∈ b, s < ts.length) := by
  have hk : 2 ≤ ceilDivNat ts.length 32 := by unfold ceilDivNat; omega
  have hkn : ceilDivNat ts.length 32 ≤ (ts.map (fun s => tl.getD s [])).length := by
    rw [List.length_map]
    unfold ceilDivNat
    omega
  obtain ⟨hlen, hone, hbne, hbnd⟩ := mskfTestFolds_partition
    (ts.map (fun s => tl.getD s [])) 28 (ceilDivNat ts.length 32) o hk hkn
  rw [List.length_map] at hone hbnd
  exact ⟨_, TrainGenerator_init_ok hn, hlen, hone, hbne, hbnd⟩

/-- C3, witness: a concrete successful construction at n = 33. -/
theorem C3_witness :
    (33 : ℕ) ≤ (List.range 33).length ∧
    ∃ g, TrainGenerator_init [] (List.range 33) 0 (fun _ => 0) = .ok g ∧
      g.batch_sets.length = g.n_splits ∧
      (∀ s, s < (List.range 33).length →
        (g.batch_sets.filter (fun b => decide (s ∈ b))).length = 1) ∧
      (∀ b ∈ g.batch_sets, b ≠ [] ∧ b.Nodup) ∧
      (∀ b ∈ g.batch_sets, ∀ s ∈ b, s < (List.range 33).length) :=
  ⟨by decide, C3_theorem (fun _ => 0) [] (List.range 33) 0 (by decide)⟩

/-- C4: `Train.train_test_split` constructs the train generator and the
validation generator from the same `train_set` array — the train side of
the first stratified fold `tv.1` — so the two generators' stored index
sets coincide, and neither is the held-out fold `tv.2`. -/
theorem C4_theorem : ∀ (tl : List (List ℕ)) (k0 bs : ℕ) (o o1 o2 : ℕ → ℕ),
    (train_test_split tl k0 bs o o1 o2).map
      (fun p => (p.1.train_set, p.2.train_set)) =
    (mskfFirstFold tl k0 o).bind (fun tv =>
      (train_test_split tl k0 bs o o1 o2).map (fun _ => (tv.1, tv.1))) := by
  intro tl k0 bs o o1 o2
  unfold train_test_split
  cases hf : mskfFirstFold tl k0 o with
  | error e => rfl
  | ok tv =>
      cases h1 : TrainGenerator_init tl tv.1 bs o1 with
      | error e => simp [Except.bind, Except.map, h1]
      | ok g1 =>
          cases h2 : TrainGenerator_init tl tv.1 bs o2 with
          | error e => simp [Except.bind, Except.map, h1, h2]
          | ok g2 =>
              have hg1 := (TrainGenerator_init_fields h1).2.1
              have hg2 := (TrainGenerator_init_fields h2).2.1
              simp [Except.bind, Except.map, h1, h2, hg1, hg2]

/-- C5, counterexample: `any(None)` (a selector that is not an int, a
sequence of ints, or a class-name string) matches no `isinstance` branch;
the function reaches `return self.labels.loc[mask]` with `mask` unbound
and raises `UnboundLocalError` (a `NameError`), which is not a
TypeError-equivalent; nothing is raised immediately at dispatch. -/
theorem C5_counterexample :
    pa_any { columns := protein_classes, rows := [(("a"), binarizeRow vocab28 [0])] }
      .pnone = .error PyErr.nameError ∧
    PyErr.nameError ≠ PyErr.typeError := ⟨rfl, by decide⟩

/-- C5, amended: every invalid selector type still makes `any` fail
before returning any rows (there is no silent coercion), but not with a
TypeError: inputs matching no `isinstance` branch (floats, `None`, lists
whose first element is not an int) leave `mask` unbound and raise
`UnboundLocalError` at the final `return`, and the empty list raises
`IndexError` inside the dispatch test `class_[0]`. -/
theorem C5_theorem : ∀ (df : LabelDF),
    (pa_any df .pfloat = .error PyErr.nameError) ∧
    (pa_any df .pnone = .error PyErr.nameError) ∧
    (∀ (s : String) (xs : List PyVal),
      pa_any df (.plist (.vstr s :: xs)) = .error PyErr.nameError) ∧
    (∀ (xs : List PyVal),
      pa_any df (.plist (.vnone :: xs)) = .error PyErr.nameError) ∧
    (pa_any df (.plist []) = .error PyErr.indexError) := by
  intro df
  exact ⟨rfl, rfl, fun s xs => rfl, fun xs => rfl, rfl⟩

/-- C10: on a label table carrying the 28-class vocabulary as columns,
`any([0])` returns exactly the subset of rows whose column 0 equals 1,
and `any("Nucleoplasm")` (the class name at index 0 of the vocabulary)
returns the identical subset. -/
theorem C10_theorem : ∀ (df : LabelDF), df.columns = protein_classes →
    pa_any df (.plist [PyVal.vint 0]) =
      .ok { columns := df.columns,
            rows := df.rows.filter (fun r => decide (r.2.getD 0 0 = 1)) } ∧
    pa_any df (.pstr ("Nucleoplasm")) =
      .ok { columns := df.columns,
            rows := df.rows.filter (fun r => decide (r.2.getD 0 0 = 1)) } := by
  intro df hcols
  obtain ⟨cols, rows⟩ := df
  simp only at hcols
  subst hcols
  have hfilter : ∀ (rs : List (String × List ℕ)),
      rs.filter (fun r => [0].any (fun p => decide (r.2.getD p 0 = 1))) =
      rs.filter (fun r => decide (r.2.getD 0 0 = 1)) := by
    intro rs
    apply List.filter_congr
    intro r _
    simp
  have hcp : colPos { columns := protein_classes, rows := rows } ("Nucleoplasm")
      = [0] := rfl
  constructor
  · rw [show pa_any { columns := protein_classes, rows := rows }
        (.plist [PyVal.vint 0]) =
        .ok (selectAnyMask { columns := protein_classes, rows := rows } [0])
      from rfl]
    unfold selectAnyMask
    rw [hfilter]
  · have hpa : pa_any { columns := protein_classes, rows := rows }
        (.pstr ("Nucleoplasm")) =
        .ok (selectAnyMask { columns := protein_classes, rows := rows } [0]) := by
      rw [show pa_any { columns := protein_classes, rows := rows }
            (.pstr ("Nucleoplasm")) =
          (if (colPos { columns := protein_classes, rows := rows }
              ("Nucleoplasm")).isEmpty
            then Except.error PyErr.keyError
            else Except.ok (selectAnyMask { columns := protein_classes, rows := rows }
              (colPos { columns := protein_classes, rows := rows } ("Nucleoplasm"))))
        from rfl]
      rw [hcp]
      rfl
    rw [hpa]
    unfold selectAnyMask
    rw [hfilter]

/-- C10, witness: a concrete two-row table over the 28-class vocabulary. -/
theorem C10_witness :
    pa_any { columns := protein_classes,
             rows := [(("a"), binarizeRow vocab28 [0, 5]),
                      (("b"), binarizeRow vocab28 [3])] }
      (.plist [PyVal.vint 0]) =
      .ok { columns := protein_classes,
            rows := [(("a"), binarizeRow vocab28 [0, 5]),
                     (("b"), binarizeRow vocab28 [3])].filter
              (fun r => decide (r.2.getD 0 0 = 1)) } ∧
    pa_any { columns := protein_classes,
             rows := [(("a"), binarizeRow vocab28 [0, 5]),
                      (("b"), binarizeRow vocab28 [3])] }
      (.pstr ("Nucleoplasm")) =
      .ok { columns := protein_classes,
            rows := [(("a"), binarizeRow vocab28 [0, 5]),
                     (("b"), binarizeRow vocab28 [3])].filter
              (fun r => decide (r.2.getD 0 0 = 1)) } :=
  C10_theorem _ rfl

/-- C7: binarizing the target string "0 5 27" against the fitted
28-class vocabulary yields the 28-wide 0/1 row with exactly positions
{0, 5, 27} equal to 1 (column order fixed by the vocabulary, whose length
matches the 28 class names), and decoding that row's positive positions
through the vocabulary recovers [0, 5, 27]. -/
theorem C7_theorem :
    read_target ("0 5 27") = .ok [0, 5, 27] ∧
    binarizeRow vocab28 [0, 5, 27] =
      [1, 0, 0, 0, 0, 1, 0, 0, 0, 0, 0, 0, 0, 0,
       0, 0, 0, 0, 0, 0, 0, 0, 0, 0, 0, 0, 0, 1] ∧
    (binarizeRow vocab28 [0, 5, 27]).length = protein_classes.length ∧
    positiveClasses vocab28 (binarizeRow vocab28 [0, 5, 27]) = [0, 5, 27] := by
  exact ⟨by decide, by decide, by decide, by decide⟩

theorem read_target_error {s : String} {e : PyErr}
    (h : read_target s = .error e) : e = PyErr.valueError := by
  unfold read_target at h
  cases hm : (splitOnChar ' ' s.toList).mapM parsePiece with
  | none =>
      rw [hm] at h
      injection h with h
      exact h.symm
  | some ts =>
      rw [hm] at h
      cases h

theorem mapM_first_error {α β : Type} (f : α → Except PyErr β)
    (herr : ∀ a e, f a = .error e → e = PyErr.valueError) :
    ∀ (l : List α), (∃ a ∈ l, ∃ e, f a = .error e) →
      l.mapM f = .error PyErr.valueError := by
  intro l
  induction l with
  | nil => rintro ⟨a, ha, _⟩; cases ha
  | cons x xs ih =>
      rintro ⟨a, ha, e, hae⟩
      rw [List.mapM_cons]
      cases hx : f x with
      | error e' =>
          rw [herr x e' hx]
          rfl
      | ok b =>
          rcases List.mem_cons.mp ha with rfl | ha'
          · rw [hx] at hae; cases hae
          · rw [ih ⟨a, ha', e, hae⟩]
            rfl

/-- C9: if any row of the label CSV has an empty or otherwise malformed
target string (one `np.int32` refuses to parse), `Train.__init__` errors
with the `ValueError` of the parse (the ParseError-equivalent) and no
`Train` object — in particular no partial label table — is produced. -/
theorem C9_theorem : ∀ (csv : List (String × String)) (r : String × String),
    r ∈ csv → read_target r.2 = .error PyErr.valueError →
    Train_init csv = .error PyErr.valueError := by
  intro csv r hr herr
  unfold Train_init
  have hmapM : csv.mapM (fun w => (read_target w.2).map (fun ts => (w.1, ts)))
      = .error PyErr.valueError := by
    apply mapM_first_error
    · intro a e hae
      cases hrt : read_target a.2 with
      | error e' =>
          rw [hrt] at hae
          injection hae with hae
          rw [← hae]
          exact read_target_error hrt
      | ok ts => rw [hrt] at hae; cases hae
    · exact ⟨r, hr, PyErr.valueError, by rw [herr]; rfl⟩
  rw [hmapM]

/-- C9, witness: a one-row CSV whose target string is empty. -/
theorem C9_witness :
    Train_init [(("a"), (""))] = .error PyErr.valueError :=
  C9_theorem [(("a"), (""))] (("a"), ("")) (by simp) (by decide)

theorem pyListGet_err {α : Type} {xs : List α} {i : ℤ}
    (h : (xs.length : ℤ) ≤ i ∨ i < -(xs.length : ℤ)) :
    pyListGet xs i = .error PyErr.indexError := by
  have hcond : ¬(0 ≤ (if i < 0 then (xs.length : ℤ) + i else i) ∧
      (if i < 0 then (xs.length : ℤ) + i else i).toNat < xs.length) := by
    by_cases hi : i < 0
    · rw [if_pos hi]; omega
    · rw [if_neg hi]; omega
  simp only [pyListGet]
  rw [dif_neg hcond]

theorem Test_get_generator_fields {tt : TestModel} {bs : ℕ} {g : TestGen}
    (h : Test_get_generator tt bs = .ok g) :
    g.batch_size = bs ∧
    g.batch_sets = arraySplit tt.index.length (ceilDivNat tt.index.length bs) := by
  simp only [Test_get_generator] at h
  split at h
  · cases h
  · split at h
    · cases h
    · injection h with h
      subst h
      exact ⟨rfl, rfl⟩

theorem arraySplit_length (n k : ℕ) : (arraySplit n k).length = k := by
  simp [arraySplit]

/-- C6, amended: for both generator classes, `get(i)` fails with
`IndexError` for every i at or beyond the length and for every i below
`-length`; but `self.batch_sets[index]` is plain Python list
subscription, so the negative indices `-L ≤ i ≤ -1` (also outside
`[0, L)`) silently wrap around and return a batch instead of raising. -/
theorem C6_theorem :
    (∀ (tm : TrainModel) (stor : Store) (g : TrainGen) (i : ℤ),
      ((TrainGenerator_len g : ℤ) ≤ i ∨ i < -(TrainGenerator_len g : ℤ)) →
      TrainGenerator_getitem tm stor g i = .error PyErr.indexError) ∧
    (∀ (tt : TestModel) (stor : Store) (bs : ℕ) (g : TestGen) (i : ℤ),
      Test_get_generator tt bs = .ok g →
      ((TestGenerator_len tt g : ℤ) ≤ i ∨ i < -(TestGenerator_len tt g : ℤ)) →
      TestGenerator_getitem tt stor g i = .error PyErr.indexError) := by
  constructor
  · intro tm stor g i hi
    unfold TrainGenerator_getitem
    rw [pyListGet_err hi]
    rfl
  · intro tt stor bs g i hok hi
    obtain ⟨hbs, hsets⟩ := Test_get_generator_fields hok
    have hlen : (g.batch_sets.length : ℤ) = (TestGenerator_len tt g : ℤ) := by
      rw [hsets, arraySplit_length]
      unfold TestGenerator_len
      rw [hbs]
    unfold TestGenerator_getitem
    rw [pyListGet_err (by rw [hlen]; exact hi)]
    rfl

/-- C6, counterexample: a test generator over 3 ids with batch size 2 has
length L = 2; the index -1 lies outside [0, L), yet `get(-1)` succeeds
(Python list indexing wraps negative indices) instead of failing with an
IndexError-equivalent. -/
theorem C6_counterexample :
    exceptOk (TestGenerator_getitem { index := [("a"), ("b"), ("c")] }
      (fun _ _ _ _ => (0 : Fin 256))
      { batch_size := 2, batch_sets := arraySplit 3 2 } (-1)) = true ∧
    Test_get_generator { index := [("a"), ("b"), ("c")] } 2 =
      .ok { batch_size := 2, batch_sets := arraySplit 3 2 } ∧
    TestGenerator_len { index := [("a"), ("b"), ("c")] }
      { batch_size := 2, batch_sets := arraySplit 3 2 } = 2 ∧
    ¬((0 : ℤ) ≤ -1 ∧ (-1 : ℤ) < 2) := by
  exact ⟨by decide, rfl, rfl, by decide⟩

/-- C6, witness: concrete out-of-range accesses on both generators. -/
theorem C6_witness :
    TrainGenerator_getitem { df := { columns := [], rows := [] }, classes_ := [] }
      (fun _ _ _ _ => (0 : Fin 256))
      { batch_size := 32, train_set := [0], n_splits := 2, batch_sets := [[0], [1]] } 5
      = .error PyErr.indexError ∧
    TestGenerator_getitem { index := [("a"), ("b"), ("c")] }
      (fun _ _ _ _ => (0 : Fin 256))
      { batch_size := 2, batch_sets := arraySplit 3 2 } (-5)
      = .error PyErr.indexError :=
  ⟨C6_theorem.1 _ _ _ 5 (by decide),
   C6_theorem.2 _ _ 2 _ (-5) rfl (by decide)⟩

theorem take_succ_set {α : Type} (v : α) :
    ∀ (X : List α) (j : ℕ), j < X.length →
      (X.set j v).take (j + 1) = X.take j ++ [v] := by
  intro X
  induction X with
  | nil => intro j hj; simp at hj
  | cons x xs ih =>
      intro j hj
      cases j with
      | zero => simp
      | succ j =>
          rw [List.set_cons_succ, List.take_succ_cons, List.take_succ_cons]
          rw [ih j (by simpa using hj)]
          rfl

theorem foldl_set_enumFrom {α : Type} (f : String → α) :
    ∀ (ids : List String) (X : List α) (j : ℕ), X.length = j + ids.length →
      ((List.enumFrom j ids).foldl (fun a p => a.set p.1 (f p.2)) X) =
        X.take j ++ ids.map f := by
  intro ids
  induction ids with
  | nil =>
      intro X j hX
      simp only [List.length_nil] at hX
      simp only [List.enumFrom, List.foldl_nil, List.map_nil, List.append_nil]
      rw [List.take_of_length_le (by omega)]
  | cons idh idt ih =>
      intro X j hX
      simp only [List.enumFrom, List.foldl_cons]
      have hj : j < X.length := by
        rw [hX]
        simp only [List.length_cons]
        omega
      have hlen : (X.set j (f idh)).length = (j + 1) + idt.length := by
        rw [List.length_set, hX, List.length_cons]
        omega
      rw [ih (X.set j (f idh)) (j + 1) hlen]
      rw [take_succ_set (f idh) X j hj]
      simp [List.map_cons]

/-- The array-fill loop of `get_images` produces exactly the ordered
stack of per-id `get_image` results. -/
theorem get_images_eq_map (stor : Store) (ids : List String) :
    get_images stor ids = ids.map (get_image stor) := by
  unfold get_images
  simp only [List.enum]
  rw [foldl_set_enumFrom (get_image stor) ids (List.replicate ids.length zeros3) 0
    (by simp)]
  simp

/-- C8: `get_images(ids)` equals the stack of per-id `get_image` results
in the same order, with leading (batch) length `len(ids)`; and every
`get_image` value — a byte divided by 255 — lies in [0, 1].  The
(512, 512, 4) shape of each `get_image` result and the uniform row/column
extent of the batch tensor are carried by the `Tensor3` type of the
embedding. -/
theorem C8_theorem : ∀ (stor : Store) (ids : List String),
    (get_images stor ids).length = ids.length ∧
    get_images stor ids = ids.map (get_image stor) ∧
    (∀ (id_ : String) (r c : Fin 512) (ch : Fin 4),
      0 ≤ get_image stor id_ r c ch ∧ get_image stor id_ r c ch ≤ 1) := by
  intro stor ids
  refine ⟨?_, get_images_eq_map stor ids, ?_⟩
  · rw [get_images_eq_map]
    exact List.length_map _ _
  · intro id_ r c ch
    unfold get_image
    constructor
    · positivity
    · rw [div_le_one (by norm_num)]
      have h1 : (stor id_ ch r c).val ≤ 255 :=
        Nat.lt_succ_iff.mp (stor id_ ch r c).isLt
      exact_mod_cast h1
